import Mathlib

/-!
Verification of the session-boundary analytics engine (`src/tmp.py`).

Shallow embedding conventions:
* instants are modelled as `Int` epoch *seconds* (the Python code works with
  `datetime` values and epoch milliseconds; everything in the claims is at
  second granularity, and the embedding keeps one uniform unit);
* prices/floats are modelled as `ℚ` (exact arithmetic over the same formulas);
* a Python `ohlcv` row `[ts, open, high, low, close, volume]` is a `Candle`;
* a fallible fetch is an `Except Unit (List Candle)`;
* Python strings are `List Char`.
-/

/-- One OHLCV row: `[ts, open, high, low, close, volume]`. -/
structure Candle where
  ts : Int
  opn : ℚ
  high : ℚ
  low : ℚ
  close : ℚ
  vol : ℚ
  deriving DecidableEq, Repr

/-- Result dict built by `compute_session_performance`. -/
structure PerformanceResult where
  symbol : String
  pct : ℚ
  low : ℚ
  high : ℚ
  low_ts : Int
  high_ts : Int
  deriving DecidableEq, Repr

/-! ## 1. Clock / Window Calculator (`previous_kst_session_bounds`, `latest_5am_kst_at_or_before`)

`KST = UTC+9`.  For an epoch-second instant `now`, the Python code forms
`today_05 = now_kst.replace(hour=5, minute=0, second=0, microsecond=0)`:
the instant of 05:00 KST on the same KST civil day as `now`.  With
`localSec = now + 32400`, the KST civil day index is `localSec.fdiv 86400`
(Python's floor division), and 05:00 KST of that day is
`day * 86400 + 18000 - 32400` in epoch seconds. -/

/-- The 05:00 KST instant on the KST civil day containing `now` (epoch seconds). -/
def today5 (now : Int) : Int :=
  ((now + 32400).fdiv 86400) * 86400 + 18000 - 32400

/-- Embedding of `previous_kst_session_bounds`: returns `(start, end)` epoch seconds.
The `else` branch translates `today_05 - timedelta(days=2)` and
`today_05 - timedelta(days=1, seconds=-1)`; note
`timedelta(days=1, seconds=-1)` is `86399` seconds. -/
def previous_kst_session_bounds (now : Int) : Int × Int :=
  let t5 := today5 now
  if t5 ≤ now then
    (t5 - 86400, t5 - 1)
  else
    (t5 - 2 * 86400, t5 - 86399)

/-- Embedding of `latest_5am_kst_at_or_before`: today's 05:00 KST if `now` is at or after
it, else yesterday's. -/
def latest_5am_kst_at_or_before (now : Int) : Int :=
  let t5 := today5 now
  if t5 ≤ now then t5 else t5 - 86400

/-! ## 2. Session Performance Evaluator (`compute_session_performance`) -/

/-- Python's `min(l, key=f)`: fold that replaces the current best only on a
strict decrease of the key, so the first minimiser wins ties. -/
def pyMinBy {α : Type} (f : α → ℚ) (x : α) (xs : List α) : α :=
  xs.foldl (fun acc y => if f y < f acc then y else acc) x

/-- Python's `max(l, key=f)`: fold that replaces the current best only on a
strict increase of the key, so the first maximiser wins ties. -/
def pyMaxBy {α : Type} (f : α → ℚ) (x : α) (xs : List α) : α :=
  xs.foldl (fun acc y => if f acc < f y then y else acc) x

/-- Window filter `since_ms <= row[0] <= until_ms`. -/
def inWindow (sinceMs untilMs : Int) (c : Candle) : Bool :=
  decide (sinceMs ≤ c.ts) && decide (c.ts ≤ untilMs)

/-- Embedding of `compute_session_performance`.  The fetch is passed in as data
(`.error` = the `fetch_ohlcv` call raised; the code catches it and returns
`None`).  The two `match ... | [] => none` arms are unreachable (the first
because `rows.length ≥ 2`, the second because the low candle itself
survives the `ts ≥ low_ts` filter); Python reaches neither either. -/
def compute_session_performance (symbol : String)
    (fetched : Except Unit (List Candle)) (sinceMs untilMs : Int) :
    Option PerformanceResult :=
  match fetched with
  | .error _ => none
  | .ok ohlcv =>
    if ohlcv.isEmpty then none
    else
      let rows := ohlcv.filter (inWindow sinceMs untilMs)
      if rows.length < 2 then none
      else
        match rows with
        | [] => none
        | r0 :: rtl =>
          let lowC := pyMinBy (·.low) r0 rtl
          match rows.filter (fun c => decide (lowC.ts ≤ c.ts)) with
          | [] => none
          | a0 :: atl =>
            let highC := pyMaxBy (·.high) a0 atl
            let pct : ℚ :=
              if 0 < lowC.low ∧ lowC.low ≤ highC.high then
                (highC.high - lowC.low) / lowC.low * 100
              else 0
            some { symbol := symbol, pct := pct, low := lowC.low,
                   high := highC.high, low_ts := lowC.ts, high_ts := highC.ts }

/-- The ranking loop of `main`: per symbol, keep the result when the
evaluator returns one, skip the symbol otherwise; never aborts. -/
def runRanking (fetches : List (String × Except Unit (List Candle)))
    (sinceMs untilMs : Int) : List PerformanceResult :=
  fetches.filterMap (fun sf => compute_session_performance sf.1 sf.2 sinceMs untilMs)

/-! ## 3. Boundary Resampler + Interval Delta Series (`last_n_interval_deltas_30m`) -/

/-- The cursor loop
`while idx + 1 < len(ohlcv) and ohlcv[idx + 1][0] <= b_ms: idx += 1`
as a zipper on (candidate candle at `idx`, candles after `idx`). -/
def advanceCursor (cur : Candle) (rest : List Candle) (b : Int) :
    Candle × List Candle :=
  match rest with
  | [] => (cur, [])
  | c :: rest' => if c.ts ≤ b then advanceCursor c rest' b else (cur, c :: rest')

/-- Boundary price check `if idx < len(ohlcv) and ohlcv[idx][0] <= b_ms and ohlcv[idx][4] and ohlcv[idx][4] > 0`:
the candidate's close, provided it is at-or-before the boundary and truthy
and positive; otherwise `None` ("absent"). -/
def boundaryPrice (cur : Candle) (b : Int) : Option ℚ :=
  if cur.ts ≤ b ∧ cur.close ≠ 0 ∧ 0 < cur.close then some cur.close else none

/-- The per-boundary scan: advance the monotone cursor, emit the price. -/
def scanBoundaries (cur : Candle) (rest : List Candle) :
    List Int → List (Option ℚ)
  | [] => []
  | b :: bs =>
    let s := advanceCursor cur rest b
    boundaryPrice s.1 b :: scanBoundaries s.1 s.2 bs

/-- One delta: `if p_prev and p_cur and p_prev > 0` (Python truthiness on an
optional float is "present and nonzero"). -/
def deltaOf (pPrev pCur : Option ℚ) : ℚ :=
  match pPrev, pCur with
  | some a, some b => if a ≠ 0 ∧ b ≠ 0 ∧ 0 < a then (b - a) / a * 100 else 0
  | _, _ => 0

/-- Delta loop `for i in range(1, len(prices)): ... deltas.append(...)`. -/
def deltasOfPrices (prices : List (Option ℚ)) : List ℚ :=
  List.zipWith deltaOf prices prices.tail

/-- Step count `last_step_index = (int((now - base).total_seconds() // 60)) // 30`
(Python `//` floors, hence `Int.fdiv`). -/
def lastStepIndex (base now : Int) : Int :=
  ((now - base).fdiv 60).fdiv 30

/-- Boundary list `boundaries = [base + timedelta(minutes=30*i) for i in range(0, k+1)]`,
in epoch seconds. -/
def boundaries30 (base : Int) (k : Nat) : List Int :=
  (List.range (k + 1)).map (fun i : Nat => base + 1800 * (i : Int))

/-- Embedding of `last_n_interval_deltas_30m`.  Note `deltas[-n:]` for `n = 0` is the whole
list in Python (`-0 == 0`), hence the explicit `n = 0` branch. -/
def last_n_interval_deltas_30m (fetched : Except Unit (List Candle))
    (base now : Int) (n : Nat) : List ℚ :=
  match fetched with
  | .error _ => []
  | .ok [] => []
  | .ok (c0 :: ctl) =>
    let k := lastStepIndex base now
    if k < 1 then []
    else
      let prices := scanBoundaries c0 ctl (boundaries30 base k.toNat)
      let deltas := deltasOfPrices prices
      if deltas.length < n then deltas
      else if n = 0 then deltas
      else deltas.drop (deltas.length - n)

/-- Modelled from the spec: "the close of the most recent candle with
timestamp ≤ the boundary instant, absent when no such candle exists or that
close is non-positive".  On an ascending series the most recent
at-or-before candle is the last element of the `ts ≤ b` filter. -/
def naiveBoundaryPrice (candles : List Candle) (b : Int) : Option ℚ :=
  match (candles.filter (fun c => decide (c.ts ≤ b))).getLast? with
  | none => none
  | some c => if 0 < c.close then some c.close else none

/-! ## 4. Ranking & Message Chunker (`send_ranked_messages`, the sort in `main`) -/

/-- Whitespace set stripped by Python's `str.rstrip()` (ASCII part). -/
def pySpace (c : Char) : Bool :=
  c = ' ' || c = '\t' || c = '\n' || c = '\r' || c = Char.ofNat 11 || c = Char.ofNat 12

/-- Python `buf.rstrip()` on a `List Char` string. -/
def rstrip (l : List Char) : List Char :=
  (l.reverse.dropWhile pySpace).reverse

/-- Chunker state: `buf`, `lines_in_msg`, and the messages sent so far. -/
structure ChunkState where
  buf : List Char
  lines : Nat
  sent : List (List Char)
  deriving Repr, DecidableEq

/-- Separator of `chunk`: `"\n\n" if lines_in_msg > 0 or header in buf else ""`. -/
def chunkSep : List Char := ['\n', '\n']

/-- Nested helper `flush()`: send `buf.rstrip()` when it holds entries, then
reset the buffer to the bare header. -/
def flushBuf (header : List Char) (s : ChunkState) : ChunkState :=
  if 0 < s.lines then ⟨header, 0, s.sent ++ [rstrip s.buf]⟩
  else ⟨header, 0, s.sent⟩

/-- Loop body of `send_ranked_messages` for one entry, where
`entry = line1 + "\n" + line2` is the already-formatted two-line block. -/
def chunkStep (header : List Char) (lineCap : Nat) (s : ChunkState)
    (entry : List Char) : ChunkState :=
  let chunk := (if 0 < s.lines ∨ header <:+: s.buf then chunkSep else []) ++ entry
  if lineCap < s.lines + 1 ∨ 3500 < s.buf.length + chunk.length then
    let s' := flushBuf header s
    ⟨s'.buf ++ entry, 1, s'.sent⟩
  else
    ⟨s.buf ++ chunk, s.lines + 1, s.sent⟩

/-- Embedding of `send_ranked_messages`, abstracted over the formatted
entries; the result is the list of messages sent, in order. -/
def send_ranked_messages (header : List Char) (lineCap : Nat)
    (entries : List (List Char)) : List (List Char) :=
  (flushBuf header (entries.foldl (chunkStep header lineCap) ⟨header, 0, []⟩)).sent

/-- Stable insertion for the descending-by-`pct` sort: the element moves past
strictly greater keys only, so an earlier element with an equal key stays
first.  Python's `list.sort(key=lambda x: x["pct"], reverse=True)` is
specified as a stable sort, and a stable descending-by-key permutation is
unique, hence extensionally equal to this function. -/
def insertByPctDesc (r : PerformanceResult) :
    List PerformanceResult → List PerformanceResult
  | [] => [r]
  | x :: xs => if r.pct < x.pct then x :: insertByPctDesc r xs else r :: x :: xs

/-- Embedding of `results.sort(key=lambda x: x["pct"], reverse=True)`. -/
def sortByPctDesc (l : List PerformanceResult) : List PerformanceResult :=
  l.foldr insertByPctDesc []

/-! ## 5. Helper lemmas: first-occurrence extrema -/

/-- Python's `min(l, key=f)` splits the list at the first minimiser: strictly
greater keys before it, greater-or-equal keys after it. -/
theorem pyMinBy_decomp {α : Type} (f : α → ℚ) (x : α) (xs : List α) :
    ∃ l1 l2, x :: xs = l1 ++ pyMinBy f x xs :: l2 ∧
      (∀ z ∈ l1, f (pyMinBy f x xs) < f z) ∧
      (∀ z ∈ l2, f (pyMinBy f x xs) ≤ f z) := by
  induction xs generalizing x with
  | nil => exact ⟨[], [], rfl, by simp, by simp⟩
  | cons y ys ih =>
    have hstep : pyMinBy f x (y :: ys) = pyMinBy f (if f y < f x then y else x) ys := rfl
    by_cases h : f y < f x
    case pos =>
      rw [hstep, if_pos h]
      obtain ⟨l1, l2, hd, h1, h2⟩ := ih y
      have hy : f (pyMinBy f y ys) ≤ f y := by
        cases l1 with
        | nil =>
          rw [List.nil_append] at hd
          injection hd with e1 e2
          rw [← e1]
        | cons a l1' =>
          rw [List.cons_append] at hd
          injection hd with e1 e2
          have hfa : f (pyMinBy f y ys) < f a := h1 a (List.mem_cons_self a l1')
          rw [← e1] at hfa
          exact le_of_lt hfa
      refine ⟨x :: l1, l2, ?_, ?_, h2⟩
      · rw [List.cons_append, ← hd]
      · intro z hz
        rcases List.mem_cons.mp hz with hz | hz
        · rw [hz]; exact lt_of_le_of_lt hy h
        · exact h1 z hz
    case neg =>
      rw [hstep, if_neg h]
      obtain ⟨l1, l2, hd, h1, h2⟩ := ih x
      cases l1 with
      | nil =>
        rw [List.nil_append] at hd
        injection hd with e1 e2
        refine ⟨[], y :: l2, ?_, by simp, ?_⟩
        · rw [List.nil_append, ← e1, ← e2]
        · intro z hz
          rcases List.mem_cons.mp hz with hz | hz
          · rw [hz, ← e1]; exact le_of_not_lt h
          · exact h2 z hz
      | cons a l1' =>
        rw [List.cons_append] at hd
        injection hd with e1 e2
        have hfa : f (pyMinBy f x ys) < f a := h1 a (List.mem_cons_self a l1')
        rw [← e1] at hfa
        refine ⟨x :: y :: l1', l2, ?_, ?_, h2⟩
        · rw [List.cons_append, List.cons_append, ← e2]
        · intro z hz
          rcases List.mem_cons.mp hz with hz | hz
          · rw [hz]; exact hfa
          rcases List.mem_cons.mp hz with hz | hz
          · rw [hz]; exact lt_of_lt_of_le hfa (le_of_not_lt h)
          · exact h1 z (List.mem_cons.mpr (Or.inr hz))

/-- Python's `max(l, key=f)` is `min` with the negated key. -/
theorem pyMaxBy_eq_pyMinBy_neg {α : Type} (f : α → ℚ) (x : α) (xs : List α) :
    pyMaxBy f x xs = pyMinBy (fun a => -(f a)) x xs := by
  unfold pyMaxBy pyMinBy
  congr 1
  funext acc y
  by_cases h : f acc < f y
  · rw [if_pos h, if_pos (neg_lt_neg h)]
  · rw [if_neg h, if_neg (fun hc => h (by linarith [neg_lt_neg_iff.mp hc]))]

/-- Python's `max(l, key=f)` splits the list at the first maximiser. -/
theorem pyMaxBy_decomp {α : Type} (f : α → ℚ) (x : α) (xs : List α) :
    ∃ l1 l2, x :: xs = l1 ++ pyMaxBy f x xs :: l2 ∧
      (∀ z ∈ l1, f z < f (pyMaxBy f x xs)) ∧
      (∀ z ∈ l2, f z ≤ f (pyMaxBy f x xs)) := by
  rw [pyMaxBy_eq_pyMinBy_neg]
  obtain ⟨l1, l2, hd, h1, h2⟩ := pyMinBy_decomp (fun a => -(f a)) x xs
  exact ⟨l1, l2, hd, fun z hz => by have := h1 z hz; simpa using this,
    fun z hz => by have := h2 z hz; simpa using this⟩

/-- Membership of the first minimiser. -/
theorem pyMinBy_mem {α : Type} (f : α → ℚ) (x : α) (xs : List α) :
    pyMinBy f x xs ∈ x :: xs := by
  obtain ⟨l1, l2, hd, -, -⟩ := pyMinBy_decomp f x xs
  rw [hd]; exact List.mem_append.mpr (Or.inr (List.mem_cons_self _ _))

/-- Minimality of the first minimiser. -/
theorem pyMinBy_le {α : Type} (f : α → ℚ) (x : α) (xs : List α) :
    ∀ z ∈ x :: xs, f (pyMinBy f x xs) ≤ f z := by
  obtain ⟨l1, l2, hd, h1, h2⟩ := pyMinBy_decomp f x xs
  intro z hz
  rw [hd] at hz
  rcases List.mem_append.mp hz with hz | hz
  · exact le_of_lt (h1 z hz)
  · rcases List.mem_cons.mp hz with rfl | hz
    · exact le_refl _
    · exact h2 z hz

/-- Membership of the first maximiser. -/
theorem pyMaxBy_mem {α : Type} (f : α → ℚ) (x : α) (xs : List α) :
    pyMaxBy f x xs ∈ x :: xs := by
  obtain ⟨l1, l2, hd, -, -⟩ := pyMaxBy_decomp f x xs
  rw [hd]; exact List.mem_append.mpr (Or.inr (List.mem_cons_self _ _))

/-- Maximality of the first maximiser. -/
theorem pyMaxBy_ge {α : Type} (f : α → ℚ) (x : α) (xs : List α) :
    ∀ z ∈ x :: xs, f z ≤ f (pyMaxBy f x xs) := by
  obtain ⟨l1, l2, hd, h1, h2⟩ := pyMaxBy_decomp f x xs
  intro z hz
  rw [hd] at hz
  rcases List.mem_append.mp hz with hz | hz
  · exact le_of_lt (h1 z hz)
  · rcases List.mem_cons.mp hz with rfl | hz
    · exact le_refl _
    · exact h2 z hz

/-! ## 6. Claim C1: session window bounds -/

/-- C1: counter-evidence for the claim (and for the code's own docstring).
At `now = 57600` (epoch s; 01:00 KST, i.e. local time-of-day before 05:00)
the code's window end is `today5 - 86400 + 1` — one second *after* the
previous 05:00 KST — so the window spans 86401 seconds, not 86399, and is
not `[today5 - 48h, today5 - 24h - 1s]` as the claim (and the docstring
`05:00→04:59:59`) requires. -/
theorem C1_else_branch_end_off_by_two :
    (57600 : Int) < today5 57600 ∧
    previous_kst_session_bounds 57600 =
      (today5 57600 - 2 * 86400, today5 57600 - 86400 + 1) ∧
    (previous_kst_session_bounds 57600).2 - (previous_kst_session_bounds 57600).1 ≠ 86399 ∧
    (previous_kst_session_bounds 57600).2 ≠ today5 57600 - 86400 - 1 := by
  decide

/-! ## 7. Claim C2: evaluator result invariants -/

/-- C2: whenever the Session Performance Evaluator returns a result, its
`high_ts` is at or after its `low_ts`, both timestamps lie inside the
requested window (inclusive), `pct` is the clamped low-to-high formula, and
`pct` is never negative. -/
theorem C2_evaluator_invariants (symbol : String)
    (fetched : Except Unit (List Candle)) (sinceMs untilMs : Int)
    (r : PerformanceResult)
    (h : compute_session_performance symbol fetched sinceMs untilMs = some r) :
    r.low_ts ≤ r.high_ts ∧
    sinceMs ≤ r.low_ts ∧ r.low_ts ≤ untilMs ∧
    sinceMs ≤ r.high_ts ∧ r.high_ts ≤ untilMs ∧
    r.pct = (if 0 < r.low ∧ r.low ≤ r.high then (r.high - r.low) / r.low * 100 else 0) ∧
    0 ≤ r.pct := by
  match fetched with
  | .error e => simp [compute_session_performance] at h
  | .ok ohlcv =>
    simp only [compute_session_performance] at h
    split at h
    next => exact absurd h (by simp)
    next =>
      split at h
      next => exact absurd h (by simp)
      next hlen =>
        split at h
        next => exact absurd h (by simp)
        next r0 rtl heq =>
          split at h
          next => exact absurd h (by simp)
          next a0 atl heq2 =>
            rw [heq] at heq2
            injection h with h
            subst h
            have hlmem : pyMinBy (fun c => c.low) r0 rtl ∈ r0 :: rtl :=
              pyMinBy_mem _ r0 rtl
            have hlmem' : pyMinBy (fun c => c.low) r0 rtl ∈
                ohlcv.filter (inWindow sinceMs untilMs) := by
              rw [heq]; exact hlmem
            have hl1 : sinceMs ≤ (pyMinBy (fun c => c.low) r0 rtl).ts ∧
                (pyMinBy (fun c => c.low) r0 rtl).ts ≤ untilMs := by
              simpa [inWindow] using List.of_mem_filter hlmem'
            have hhmem : pyMaxBy (fun c => c.high) a0 atl ∈ a0 :: atl :=
              pyMaxBy_mem _ a0 atl
            have hhmem' : pyMaxBy (fun c => c.high) a0 atl ∈
                (r0 :: rtl).filter
                  (fun c => decide ((pyMinBy (fun c => c.low) r0 rtl).ts ≤ c.ts)) := by
              rw [heq2]; exact hhmem
            have hh2 : (pyMinBy (fun c => c.low) r0 rtl).ts ≤
                (pyMaxBy (fun c => c.high) a0 atl).ts := by
              simpa using List.of_mem_filter hhmem'
            have hhmem'' : pyMaxBy (fun c => c.high) a0 atl ∈
                ohlcv.filter (inWindow sinceMs untilMs) := by
              rw [heq]; exact List.mem_of_mem_filter hhmem'
            have hh1 : sinceMs ≤ (pyMaxBy (fun c => c.high) a0 atl).ts ∧
                (pyMaxBy (fun c => c.high) a0 atl).ts ≤ untilMs := by
              simpa [inWindow] using List.of_mem_filter hhmem''
            refine ⟨hh2, hl1.1, hl1.2, hh1.1, hh1.2, rfl, ?_⟩
            dsimp only
            split
            next hc =>
              have h0 : (0:ℚ) < (pyMinBy (fun c => c.low) r0 rtl).low := hc.1
              have hle := hc.2
              have : (0:ℚ) ≤ (pyMaxBy (fun c => c.high) a0 atl).high -
                  (pyMinBy (fun c => c.low) r0 rtl).low := by linarith
              exact mul_nonneg (div_nonneg this (le_of_lt h0)) (by norm_num)
            next => exact le_refl 0

/-- Witness for C2 at a concrete input: two candles, low 9 at `ts = 10`
followed by nothing higher than 15 at the same candle. -/
theorem C2_evaluator_invariants_witness :
    compute_session_performance "A"
        (.ok [⟨0, 1, 12, 10, 11, 1⟩, ⟨10, 1, 15, 9, 14, 1⟩]) 0 100 =
      some ⟨"A", 200/3, 9, 15, 10, 10⟩ ∧
    ((10:Int) ≤ 10 ∧ (0:Int) ≤ 10 ∧ (10:Int) ≤ 100 ∧ (0:Int) ≤ 10 ∧ (10:Int) ≤ 100 ∧
      (200/3 : ℚ) = (if 0 < (9:ℚ) ∧ (9:ℚ) ≤ 15 then ((15:ℚ) - 9) / 9 * 100 else 0) ∧
      (0:ℚ) ≤ 200/3) := by
  have hev : compute_session_performance "A"
      (.ok [⟨0, 1, 12, 10, 11, 1⟩, ⟨10, 1, 15, 9, 14, 1⟩]) 0 100 =
      some ⟨"A", 200/3, 9, 15, 10, 10⟩ := by
    norm_num [compute_session_performance, inWindow, pyMinBy, pyMaxBy, List.filter]
  exact ⟨hev, C2_evaluator_invariants "A" _ 0 100 _ hev⟩

/-! ## 8. Claim C3: extremum selection and tie-breaking -/

/-- C3: on an ascending candle series, the evaluator's low is the first
(equivalently, earliest-timestamp) minimum-`low` candle of the in-window
rows, and its high is the first maximum-`high` candle among exactly the
rows with timestamp at or after `low_ts`. -/
theorem C3_extremum_selection (symbol : String) (ohlcv : List Candle)
    (sinceMs untilMs : Int) (r : PerformanceResult)
    (hsort : ohlcv.Pairwise (fun a b => a.ts < b.ts))
    (h : compute_session_performance symbol (.ok ohlcv) sinceMs untilMs = some r) :
    ∃ cLow cHigh : Candle,
      cLow ∈ ohlcv.filter (inWindow sinceMs untilMs) ∧
      r.low = cLow.low ∧ r.low_ts = cLow.ts ∧
      (∀ z ∈ ohlcv.filter (inWindow sinceMs untilMs), cLow.low ≤ z.low) ∧
      (∀ z ∈ ohlcv.filter (inWindow sinceMs untilMs), z.low = cLow.low → cLow.ts ≤ z.ts) ∧
      cHigh ∈ (ohlcv.filter (inWindow sinceMs untilMs)).filter
        (fun c => decide (cLow.ts ≤ c.ts)) ∧
      r.high = cHigh.high ∧ r.high_ts = cHigh.ts ∧
      (∀ z ∈ (ohlcv.filter (inWindow sinceMs untilMs)).filter
          (fun c => decide (cLow.ts ≤ c.ts)), z.high ≤ cHigh.high) ∧
      (∀ z ∈ (ohlcv.filter (inWindow sinceMs untilMs)).filter
          (fun c => decide (cLow.ts ≤ c.ts)), z.high = cHigh.high → cHigh.ts ≤ z.ts) := by
  simp only [compute_session_performance] at h
  split at h
  next => exact absurd h (by simp)
  next =>
    split at h
    next => exact absurd h (by simp)
    next hlen =>
      split at h
      next => exact absurd h (by simp)
      next r0 rtl heq =>
        split at h
        next => exact absurd h (by simp)
        next a0 atl heq2 =>
          rw [heq] at heq2
          injection h with h
          subst h
          have hpair : (r0 :: rtl).Pairwise (fun a b => a.ts < b.ts) := by
            rw [← heq]; exact hsort.filter _
          have hpair2 : (a0 :: atl).Pairwise (fun a b => a.ts < b.ts) := by
            rw [← heq2]; exact hpair.filter _
          refine ⟨pyMinBy (fun c => c.low) r0 rtl, pyMaxBy (fun c => c.high) a0 atl,
            ?_, rfl, rfl, ?_, ?_, ?_, rfl, rfl, ?_, ?_⟩
          · rw [heq]; exact pyMinBy_mem _ r0 rtl
          · rw [heq]; exact pyMinBy_le _ r0 rtl
          · rw [heq]
            obtain ⟨l1, l2, hd, h1, h2⟩ := pyMinBy_decomp (fun c => c.low) r0 rtl
            intro z hz hzeq
            rw [hd] at hpair
            rw [hd] at hz
            rcases List.mem_append.mp hz with hz | hz
            · exact absurd hzeq (by have := h1 z hz; intro hcc; rw [hcc] at this; exact lt_irrefl _ this)
            rcases List.mem_cons.mp hz with hz | hz
            · rw [hz]
            · have hp2 := (List.pairwise_append.mp hpair).2.1
              exact le_of_lt ((List.pairwise_cons.mp hp2).1 z hz)
          · rw [heq, heq2]; exact pyMaxBy_mem _ a0 atl
          · rw [heq, heq2]; exact pyMaxBy_ge _ a0 atl
          · rw [heq, heq2]
            obtain ⟨l1, l2, hd, h1, h2⟩ := pyMaxBy_decomp (fun c => c.high) a0 atl
            intro z hz hzeq
            rw [hd] at hpair2
            rw [hd] at hz
            rcases List.mem_append.mp hz with hz | hz
            · exact absurd hzeq (by have := h1 z hz; intro hcc; rw [hcc] at this; exact lt_irrefl _ this)
            rcases List.mem_cons.mp hz with hz | hz
            · rw [hz]
            · have hp2 := (List.pairwise_append.mp hpair2).2.1
              exact le_of_lt ((List.pairwise_cons.mp hp2).1 z hz)

/-! ## 9. Claims C10 and C9: totality of the high selection, per-symbol skips -/

/-- C10: when at least two candles survive the window filter, the candle
with the minimum low survives its own `ts ≥ low_ts` filter, so the
maximum-high selection runs on a non-empty collection and the evaluator
returns a result. -/
theorem C10_after_low_contains_low (symbol : String) (ohlcv : List Candle)
    (sinceMs untilMs : Int)
    (h2 : 2 ≤ (ohlcv.filter (inWindow sinceMs untilMs)).length) :
    ∃ r0 rtl, ohlcv.filter (inWindow sinceMs untilMs) = r0 :: rtl ∧
      pyMinBy (fun c => c.low) r0 rtl ∈
        (r0 :: rtl).filter
          (fun c => decide ((pyMinBy (fun c => c.low) r0 rtl).ts ≤ c.ts)) ∧
      (r0 :: rtl).filter
          (fun c => decide ((pyMinBy (fun c => c.low) r0 rtl).ts ≤ c.ts)) ≠ [] ∧
      ∃ res, compute_session_performance symbol (.ok ohlcv) sinceMs untilMs = some res := by
  obtain ⟨r0, rtl, hrows⟩ : ∃ r0 rtl,
      ohlcv.filter (inWindow sinceMs untilMs) = r0 :: rtl := by
    rcases hl : ohlcv.filter (inWindow sinceMs untilMs) with - | ⟨a, l⟩
    · rw [hl] at h2; simp at h2
    · exact ⟨a, l, rfl⟩
  have hmem : pyMinBy (fun c => c.low) r0 rtl ∈
      (r0 :: rtl).filter
        (fun c => decide ((pyMinBy (fun c => c.low) r0 rtl).ts ≤ c.ts)) :=
    List.mem_filter.mpr ⟨pyMinBy_mem _ r0 rtl, by simp⟩
  have hne : (r0 :: rtl).filter
      (fun c => decide ((pyMinBy (fun c => c.low) r0 rtl).ts ≤ c.ts)) ≠ [] := by
    intro hcc; rw [hcc] at hmem; exact List.not_mem_nil _ hmem
  refine ⟨r0, rtl, hrows, hmem, hne, ?_⟩
  have hnemp : ¬ ohlcv.isEmpty = true := by
    intro hemp
    rw [List.isEmpty_iff] at hemp
    rw [hemp] at hrows
    simp at hrows
  simp only [compute_session_performance]
  rw [hrows]
  rw [if_neg hnemp, if_neg (by rw [hrows] at h2; omega)]
  dsimp only
  rcases hfa : (r0 :: rtl).filter
      (fun c => decide ((pyMinBy (fun c => c.low) r0 rtl).ts ≤ c.ts)) with - | ⟨a0, atl⟩
  · exact absurd hfa hne
  · rw [hfa]
    exact ⟨_, rfl⟩

/-- C9: a failed fetch, an empty fetched series, or fewer than two in-window
candles make the evaluator return no result, and the ranking loop simply
skips that symbol and processes every other symbol unchanged. -/
theorem C9_skip_never_aborts (symbol : String) (sinceMs untilMs : Int)
    (f : Except Unit (List Candle))
    (hbad : f = .error () ∨ f = .ok [] ∨
      ∃ l, f = .ok l ∧ (l.filter (inWindow sinceMs untilMs)).length < 2) :
    compute_session_performance symbol f sinceMs untilMs = none ∧
    ∀ pre post, runRanking (pre ++ (symbol, f) :: post) sinceMs untilMs =
      runRanking pre sinceMs untilMs ++ runRanking post sinceMs untilMs := by
  have hnone : compute_session_performance symbol f sinceMs untilMs = none := by
    rcases hbad with rfl | rfl | ⟨l, rfl, hlen⟩
    · rfl
    · rfl
    · by_cases hemp : l.isEmpty
      · simp [compute_session_performance, hemp]
      · simp only [compute_session_performance]
        rw [if_neg hemp, if_pos hlen]
  refine ⟨hnone, fun pre post => ?_⟩
  simp [runRanking, List.filterMap_append, List.filterMap_cons, hnone]

/-- Shared concrete candle series for witnesses: ascending timestamps,
minimum low 9 at `ts = 10`, maximum high 15 at the same candle. -/
def wCandles : List Candle := [⟨0, 1, 12, 10, 11, 1⟩, ⟨10, 1, 15, 9, 14, 1⟩]

/-- Witness for C3 at the concrete series `wCandles`. -/
theorem C3_extremum_selection_witness :
    (wCandles.Pairwise (fun a b => a.ts < b.ts) ∧
      compute_session_performance "A" (.ok wCandles) 0 100 =
        some ⟨"A", 200/3, 9, 15, 10, 10⟩) ∧
    ∃ cLow cHigh : Candle,
      cLow ∈ wCandles.filter (inWindow 0 100) ∧
      (9:ℚ) = cLow.low ∧ (10:Int) = cLow.ts ∧
      (∀ z ∈ wCandles.filter (inWindow 0 100), cLow.low ≤ z.low) ∧
      (∀ z ∈ wCandles.filter (inWindow 0 100), z.low = cLow.low → cLow.ts ≤ z.ts) ∧
      cHigh ∈ (wCandles.filter (inWindow 0 100)).filter
        (fun c => decide (cLow.ts ≤ c.ts)) ∧
      (15:ℚ) = cHigh.high ∧ (10:Int) = cHigh.ts ∧
      (∀ z ∈ (wCandles.filter (inWindow 0 100)).filter
          (fun c => decide (cLow.ts ≤ c.ts)), z.high ≤ cHigh.high) ∧
      (∀ z ∈ (wCandles.filter (inWindow 0 100)).filter
          (fun c => decide (cLow.ts ≤ c.ts)), z.high = cHigh.high → cHigh.ts ≤ z.ts) := by
  have hsort : wCandles.Pairwise (fun a b => a.ts < b.ts) := by
    simp [wCandles]
  have hev : compute_session_performance "A" (.ok wCandles) 0 100 =
      some ⟨"A", 200/3, 9, 15, 10, 10⟩ := by
    norm_num [wCandles, compute_session_performance, inWindow, pyMinBy, pyMaxBy,
      List.filter]
  exact ⟨⟨hsort, hev⟩, C3_extremum_selection "A" wCandles 0 100 _ hsort hev⟩

/-- Witness for C10 at the concrete series `wCandles`. -/
theorem C10_after_low_contains_low_witness :
    2 ≤ (wCandles.filter (inWindow 0 100)).length ∧
    ∃ r0 rtl, wCandles.filter (inWindow 0 100) = r0 :: rtl ∧
      pyMinBy (fun c => c.low) r0 rtl ∈
        (r0 :: rtl).filter
          (fun c => decide ((pyMinBy (fun c => c.low) r0 rtl).ts ≤ c.ts)) ∧
      (r0 :: rtl).filter
          (fun c => decide ((pyMinBy (fun c => c.low) r0 rtl).ts ≤ c.ts)) ≠ [] ∧
      ∃ res, compute_session_performance "A" (.ok wCandles) 0 100 = some res := by
  have h2 : 2 ≤ (wCandles.filter (inWindow 0 100)).length := by decide
  exact ⟨h2, C10_after_low_contains_low "A" wCandles 0 100 h2⟩

/-- Witness for C9: an empty fetched series at an arbitrary window. -/
theorem C9_skip_never_aborts_witness :
    ((.ok [] : Except Unit (List Candle)) = .error () ∨
      (.ok [] : Except Unit (List Candle)) = .ok [] ∨
      ∃ l, (.ok [] : Except Unit (List Candle)) = .ok l ∧
        (l.filter (inWindow 0 100)).length < 2) ∧
    (compute_session_performance "B" (.ok []) 0 100 = none ∧
      ∀ pre post, runRanking (pre ++ ("B", .ok []) :: post) 0 100 =
        runRanking pre 0 100 ++ runRanking post 0 100) :=
  ⟨Or.inr (Or.inl rfl),
    C9_skip_never_aborts "B" 0 100 (.ok []) (Or.inr (Or.inl rfl))⟩

/-! ## 10. Claim C5: delta series -/

/-- C5 counterexample: with both adjacent prices present and the earlier one
positive — `[some 100, some 0]` — the claimed formula gives `-100`, but the
code's truthiness test on the *later* price zero-fills the delta. -/
theorem C5_present_zero_counterexample :
    deltasOfPrices [some 100, some 0] = [0] ∧
    ((0:ℚ) - 100) / 100 * 100 = -100 ∧ (0:ℚ) ≠ -100 := by
  refine ⟨?_, by norm_num, by norm_num⟩
  norm_num [deltasOfPrices, deltaOf]

/-- C5 (amended): each delta is `(P_i - P_{i-1}) / P_{i-1} * 100` when both
adjacent prices are present, the earlier is positive *and the later is
nonzero*; otherwise it is `0` (in particular an absent price always
zero-fills).  The boundary prices `[100, 105, 99, 99]` give deltas
`[5, -40/7, 0]`, i.e. `+5.00% | -5.71% | 0.00%` at two displayed decimals. -/
theorem C5_deltas_amended :
    (∀ (prices : List (Option ℚ)) (i : ℕ) (a b : ℚ),
        prices[i]? = some (some a) → prices[i + 1]? = some (some b) →
        (deltasOfPrices prices)[i]? =
          some (if 0 < a ∧ b ≠ 0 then (b - a) / a * 100 else 0)) ∧
    (∀ (prices : List (Option ℚ)) (i : ℕ),
        i + 1 < prices.length →
        (prices[i]? = some none ∨ prices[i + 1]? = some none) →
        (deltasOfPrices prices)[i]? = some 0) ∧
    (∀ prices : List (Option ℚ),
        (deltasOfPrices prices).length = prices.length - 1) ∧
    deltasOfPrices [some 100, some 105, some 99, some 99] = [5, -40/7, 0] ∧
    |(-40/7 : ℚ) - (-571/100)| < 1/200 := by
  have hdelta : ∀ a b : ℚ, deltaOf (some a) (some b) =
      if 0 < a ∧ b ≠ 0 then (b - a) / a * 100 else 0 := by
    intro a b
    simp only [deltaOf]
    refine if_congr ?_ rfl rfl
    constructor
    · rintro ⟨-, hb, ha⟩; exact ⟨ha, hb⟩
    · rintro ⟨ha, hb⟩; exact ⟨ne_of_gt ha, hb, ha⟩
  refine ⟨?_, ?_, ?_, ?_, ?_⟩
  · intro prices i a b hi hi1
    rw [deltasOfPrices, List.getElem?_zipWith, List.getElem?_tail, hi, hi1]
    dsimp only
    rw [hdelta]
  · intro prices i hlen hone
    have hilt : i < prices.length := by omega
    rw [deltasOfPrices, List.getElem?_zipWith, List.getElem?_tail,
      List.getElem?_eq_getElem hilt, List.getElem?_eq_getElem hlen]
    dsimp only
    rcases hone with hone | hone
    · rw [List.getElem?_eq_getElem hilt] at hone
      injection hone with hone
      rw [hone]
      rfl
    · rw [List.getElem?_eq_getElem hlen] at hone
      injection hone with hone
      rw [hone]
      rcases prices[i] with - | a <;> rfl
  · intro prices
    simp only [deltasOfPrices, List.length_zipWith, List.length_tail]
    omega
  · simp only [deltasOfPrices, List.tail_cons, List.zipWith_cons_cons,
      List.zipWith_nil_right, deltaOf]
    norm_num
  · have h3 : (-40/7 : ℚ) - (-571/100) = -3/700 := by norm_num
    rw [h3, abs_of_nonpos (by norm_num : (-3/700:ℚ) ≤ 0)]
    norm_num

/-- Witness for the amended C5 at a concrete pair of present prices. -/
theorem C5_deltas_amended_witness :
    (([some 100, some 105] : List (Option ℚ))[0]? = some (some 100) ∧
      ([some 100, some 105] : List (Option ℚ))[1]? = some (some 105)) ∧
    (deltasOfPrices [some 100, some 105])[0]? =
      some (if 0 < (100:ℚ) ∧ (105:ℚ) ≠ 0 then ((105:ℚ) - 100) / 100 * 100 else 0) :=
  ⟨⟨rfl, rfl⟩, C5_deltas_amended.1 [some 100, some 105] 0 100 105 rfl rfl⟩

/-! ## 11. Claim C6: boundary grid monotonicity -/

/-- C6: the completed-step count is monotone in `now`, every boundary
generated for an earlier `now` is still generated for a later `now`, no
boundary lies strictly after `now`, and a zero step count yields an empty
delta series. -/
theorem C6_resampler_grid (base now1 now2 : Int)
    (h0 : base ≤ now1) (h12 : now1 ≤ now2) :
    lastStepIndex base now1 ≤ lastStepIndex base now2 ∧
    (∀ b ∈ boundaries30 base (lastStepIndex base now1).toNat,
        b ∈ boundaries30 base (lastStepIndex base now2).toNat) ∧
    (∀ b ∈ boundaries30 base (lastStepIndex base now1).toNat, b ≤ now1) ∧
    (∀ fetched n, lastStepIndex base now1 < 1 →
        last_n_interval_deltas_30m fetched base now1 n = []) := by
  have hmono : lastStepIndex base now1 ≤ lastStepIndex base now2 := by
    unfold lastStepIndex
    rw [Int.fdiv_eq_ediv _ (by norm_num), Int.fdiv_eq_ediv _ (by norm_num),
      Int.fdiv_eq_ediv _ (by norm_num), Int.fdiv_eq_ediv _ (by norm_num)]
    exact Int.ediv_le_ediv (by norm_num)
      (Int.ediv_le_ediv (by norm_num) (by omega))
  have hboundk : ∀ now, base ≤ now → 1800 * lastStepIndex base now ≤ now - base := by
    intro now hb
    unfold lastStepIndex
    rw [Int.fdiv_eq_ediv _ (by norm_num), Int.fdiv_eq_ediv _ (by norm_num)]
    have h1 : (now - base) / 60 / 30 * 30 ≤ (now - base) / 60 :=
      Int.ediv_mul_le _ (by norm_num)
    have h2 : ((now - base) / 60 / 30 * 30) * 60 ≤ ((now - base) / 60) * 60 := by
      exact mul_le_mul_of_nonneg_right h1 (by norm_num)
    have h3 : ((now - base) / 60) * 60 ≤ now - base := Int.ediv_mul_le _ (by norm_num)
    calc 1800 * ((now - base) / 60 / 30)
        = ((now - base) / 60 / 30 * 30) * 60 := by ring
      _ ≤ ((now - base) / 60) * 60 := h2
      _ ≤ now - base := h3
  have hk0 : (0:Int) ≤ lastStepIndex base now1 := by
    unfold lastStepIndex
    rw [Int.fdiv_eq_ediv _ (by norm_num), Int.fdiv_eq_ediv _ (by norm_num)]
    exact Int.ediv_nonneg (Int.ediv_nonneg (by omega) (by norm_num)) (by norm_num)
  refine ⟨hmono, ?_, ?_, ?_⟩
  · intro b hb
    rw [boundaries30] at hb ⊢
    obtain ⟨i, hi, rfl⟩ := List.mem_map.mp hb
    refine List.mem_map.mpr ⟨i, ?_, rfl⟩
    rw [List.mem_range] at hi ⊢
    have := Int.toNat_le_toNat hmono
    omega
  · intro b hb
    rw [boundaries30] at hb
    obtain ⟨i, hi, rfl⟩ := List.mem_map.mp hb
    rw [List.mem_range] at hi
    have hk := hboundk now1 h0
    have hi' : (i : Int) ≤ lastStepIndex base now1 := by
      have := Int.toNat_of_nonneg hk0
      omega
    have : 1800 * (i : Int) ≤ 1800 * lastStepIndex base now1 :=
      mul_le_mul_of_nonneg_left hi' (by norm_num)
    omega
  · intro fetched n hk
    match fetched with
    | .error e => rfl
    | .ok [] => rfl
    | .ok (c0 :: ctl) =>
      simp only [last_n_interval_deltas_30m]
      rw [if_pos hk]

/-- Witness for C6 at `base = 0`, `now1 = 3600`, `now2 = 7200`. -/
theorem C6_resampler_grid_witness :
    ((0:Int) ≤ 3600 ∧ (3600:Int) ≤ 7200) ∧
    (lastStepIndex 0 3600 ≤ lastStepIndex 0 7200 ∧
      (∀ b ∈ boundaries30 0 (lastStepIndex 0 3600).toNat,
          b ∈ boundaries30 0 (lastStepIndex 0 7200).toNat) ∧
      (∀ b ∈ boundaries30 0 (lastStepIndex 0 3600).toNat, b ≤ 3600) ∧
      (∀ fetched n, lastStepIndex 0 3600 < 1 →
          last_n_interval_deltas_30m fetched 0 3600 n = [])) :=
  ⟨⟨by norm_num, by norm_num⟩, C6_resampler_grid 0 3600 7200 (by norm_num) (by norm_num)⟩

/-! ## 12. Claim C8: stable descending sort -/

/-- Permutation property of the stable insertion. -/
theorem insertByPctDesc_perm (r : PerformanceResult) (l : List PerformanceResult) :
    List.Perm (insertByPctDesc r l) (r :: l) := by
  induction l with
  | nil => exact List.Perm.refl _
  | cons x xs ih =>
    rw [insertByPctDesc]
    split
    · exact ((ih.cons x).trans (List.Perm.swap r x xs))
    · exact List.Perm.refl _

/-- Sortedness (descending by `pct`) is preserved by the stable insertion. -/
theorem insertByPctDesc_pairwise (r : PerformanceResult) (l : List PerformanceResult)
    (h : l.Pairwise (fun a b => b.pct ≤ a.pct)) :
    (insertByPctDesc r l).Pairwise (fun a b => b.pct ≤ a.pct) := by
  induction l with
  | nil => simp [insertByPctDesc]
  | cons x xs ih =>
    rw [insertByPctDesc]
    obtain ⟨hx, hxs⟩ := List.pairwise_cons.mp h
    split
    next hlt =>
      refine List.pairwise_cons.mpr ⟨?_, ih hxs⟩
      intro z hz
      have hz' := (insertByPctDesc_perm r xs).mem_iff.mp hz
      rcases List.mem_cons.mp hz' with hz' | hz'
      · rw [hz']; exact le_of_lt hlt
      · exact hx z hz'
    next hge =>
      refine List.pairwise_cons.mpr ⟨?_, h⟩
      intro z hz
      rcases List.mem_cons.mp hz with hz | hz
      · rw [hz]; exact le_of_not_lt hge
      · exact le_trans (hx z hz) (le_of_not_lt hge)

/-- Stability of the insertion: the sub-list of any fixed `pct` value is
either preserved or gets `r` prepended. -/
theorem insertByPctDesc_filter (r : PerformanceResult) (l : List PerformanceResult)
    (v : ℚ) :
    (insertByPctDesc r l).filter (fun x => decide (x.pct = v)) =
      if r.pct = v then r :: l.filter (fun x => decide (x.pct = v))
      else l.filter (fun x => decide (x.pct = v)) := by
  induction l with
  | nil =>
    rw [insertByPctDesc]
    split
    next hv => simp [List.filter, hv]
    next hv => simp [List.filter, hv]
  | cons x xs ih =>
    rw [insertByPctDesc]
    split
    next hlt =>
      rw [List.filter_cons, List.filter_cons, ih]
      by_cases hxv : x.pct = v
      · have hrv : ¬ r.pct = v := by
          intro hrv; rw [hrv, ← hxv] at hlt; exact lt_irrefl _ hlt
        simp [hxv, hrv]
      · simp [hxv]
    next hge =>
      by_cases hrv : r.pct = v
      · simp [List.filter_cons, hrv]
      · simp [List.filter_cons, hrv]

/-- C8: the ranking sort is a permutation, descending by `pct`, and stable:
for every key value the sub-list of results carrying that `pct` is exactly
the one of the input, in the input's order. -/
theorem C8_sort_stable_desc (l : List PerformanceResult) :
    List.Perm (sortByPctDesc l) l ∧
    (sortByPctDesc l).Pairwise (fun a b => b.pct ≤ a.pct) ∧
    ∀ v : ℚ, (sortByPctDesc l).filter (fun x => decide (x.pct = v)) =
      l.filter (fun x => decide (x.pct = v)) := by
  induction l with
  | nil => exact ⟨List.Perm.refl _, List.Pairwise.nil, fun v => rfl⟩
  | cons x xs ih =>
    obtain ⟨hperm, hpair, hfil⟩ := ih
    have hstep : sortByPctDesc (x :: xs) = insertByPctDesc x (sortByPctDesc xs) := rfl
    refine ⟨?_, ?_, ?_⟩
    · rw [hstep]
      exact (insertByPctDesc_perm x (sortByPctDesc xs)).trans (hperm.cons x)
    · rw [hstep]
      exact insertByPctDesc_pairwise x _ hpair
    · intro v
      rw [hstep, insertByPctDesc_filter, List.filter_cons]
      by_cases hrv : x.pct = v
      · simp [hrv, hfil v]
      · simp [hrv, hfil v]

/-! ## 13. Claim C4: the monotone cursor refines the naive resampling -/

/-- The cursor advance splits `cur :: rest` into passed-over candles (all at
or before the boundary), the new candidate, and a remainder whose head is
strictly after the boundary. -/
theorem advanceCursor_decomp (cur : Candle) (rest : List Candle) (b : Int)
    (hsort : (cur :: rest).Pairwise (fun a c => a.ts < c.ts)) :
    ∃ dp2, cur :: rest =
        dp2 ++ (advanceCursor cur rest b).1 :: (advanceCursor cur rest b).2 ∧
      (∀ d ∈ dp2, d.ts ≤ b) ∧
      (dp2 ≠ [] → (advanceCursor cur rest b).1.ts ≤ b) ∧
      (∀ c ∈ ((advanceCursor cur rest b).2).head?, ¬ (c.ts ≤ b)) := by
  induction rest generalizing cur with
  | nil =>
    refine ⟨[], rfl, by simp, by simp [advanceCursor], ?_⟩
    simp [advanceCursor]
  | cons c rest' ih =>
    rw [advanceCursor]
    split
    next hcb =>
      obtain ⟨dp2, hd, h1, h2, h3⟩ := ih c hsort.of_cons
      refine ⟨cur :: dp2, ?_, ?_, ?_, h3⟩
      · rw [List.cons_append, ← hd]
      · intro d hdm
        rcases List.mem_cons.mp hdm with hdm | hdm
        · rw [hdm]
          have hcc : cur.ts < c.ts :=
            (List.pairwise_cons.mp hsort).1 c (List.mem_cons_self c rest')
          omega
        · exact h1 d hdm
      · intro _
        cases dp2 with
        | nil =>
          rw [List.nil_append] at hd
          injection hd with e1 e2
          rw [← e1]
          exact hcb
        | cons a dp2' => exact h2 (by simp)
    next hcb =>
      refine ⟨[], rfl, by simp, by simp, ?_⟩
      intro z hz
      simp only [List.head?_cons, Option.mem_def, Option.some.injEq] at hz
      rw [← hz]
      exact hcb

/-- The naive boundary price of a list split around the cursor's candidate:
everything before the candidate is at-or-before the boundary, everything
after is strictly later, and when the candidate itself is late the prefix
is empty — exactly the situations `advanceCursor` produces. -/
theorem naiveBoundaryPrice_split (A : List Candle) (x : Candle) (R : List Candle)
    (b : Int) (hA : ∀ d ∈ A, d.ts ≤ b) (hR : ∀ z ∈ R, b < z.ts)
    (hx : x.ts ≤ b ∨ A = []) :
    naiveBoundaryPrice (A ++ x :: R) b = boundaryPrice x b := by
  have hRnil : R.filter (fun c => decide (c.ts ≤ b)) = [] := by
    rw [List.filter_eq_nil_iff]
    intro a ha
    simpa using not_le_of_lt (hR a ha)
  by_cases hxb : x.ts ≤ b
  · rw [naiveBoundaryPrice]
    have hfil : (A ++ x :: R).filter (fun c => decide (c.ts ≤ b)) = A ++ [x] := by
      rw [List.filter_append, List.filter_cons]
      have hAfil : A.filter (fun c => decide (c.ts ≤ b)) = A :=
        List.filter_eq_self.mpr (fun a ha => by simpa using hA a ha)
      simp [hAfil, hxb, hRnil]
    rw [hfil, List.getLast?_concat]
    dsimp only
    rw [boundaryPrice]
    by_cases hc : 0 < x.close
    · rw [if_pos hc, if_pos ⟨hxb, ne_of_gt hc, hc⟩]
    · rw [if_neg hc, if_neg (fun hcc => hc hcc.2.2)]
  · rcases hx with hx | hx
    · exact absurd hx hxb
    subst hx
    rw [naiveBoundaryPrice]
    have hfil : (([] : List Candle) ++ x :: R).filter (fun c => decide (c.ts ≤ b)) = [] := by
      rw [List.nil_append, List.filter_cons]
      simp [hxb, hRnil]
    rw [hfil]
    rw [boundaryPrice, if_neg (fun hcc => hxb hcc.1)]
    rfl

/-- Generalised C4 invariant: with all passed-over candles at or before every
remaining boundary, the cursor scan agrees with the naive per-boundary
resampling of the full series. -/
theorem scanBoundaries_eq_naive_go (dp : List Candle) (cur : Candle)
    (rest : List Candle) (bs : List Int)
    (hsort : (dp ++ cur :: rest).Pairwise (fun a c => a.ts < c.ts))
    (hbs : bs.Pairwise (· ≤ ·))
    (hdp : ∀ b ∈ bs, ∀ d ∈ dp, d.ts ≤ b)
    (hcur : dp ≠ [] → ∀ b ∈ bs, cur.ts ≤ b) :
    scanBoundaries cur rest bs = bs.map (naiveBoundaryPrice (dp ++ cur :: rest)) := by
  induction bs generalizing dp cur rest with
  | nil => rfl
  | cons b bs' ih =>
    rw [scanBoundaries, List.map_cons]
    have hsc : (cur :: rest).Pairwise (fun a c => a.ts < c.ts) :=
      (List.pairwise_append.mp hsort).2.1
    obtain ⟨dp2, hd, h1, h2, h3⟩ := advanceCursor_decomp cur rest b hsc
    have hlist : dp ++ cur :: rest =
        (dp ++ dp2) ++ (advanceCursor cur rest b).1 :: (advanceCursor cur rest b).2 := by
      rw [List.append_assoc, ← hd]
    have hcurb : (dp ++ dp2) ≠ [] → (advanceCursor cur rest b).1.ts ≤ b := by
      intro hne
      cases hdp2 : dp2 with
      | nil =>
        have hdpne : dp ≠ [] := by
          intro hcc; rw [hcc, hdp2] at hne; exact hne rfl
        rw [hdp2, List.nil_append] at hd
        injection hd with e1 e2
        rw [← e1]
        exact hcur hdpne b (List.mem_cons_self b bs')
      | cons a dp2' =>
        exact h2 (by rw [hdp2]; simp)
    have hAle : ∀ d ∈ dp ++ dp2, d.ts ≤ b := by
      intro d hdm
      rcases List.mem_append.mp hdm with hdm | hdm
      · exact hdp b (List.mem_cons_self b bs') d hdm
      · exact h1 d hdm
    have hRgt : ∀ z ∈ (advanceCursor cur rest b).2, b < z.ts := by
      have hpR : ((advanceCursor cur rest b).1 :: (advanceCursor cur rest b).2).Pairwise
          (fun a c => a.ts < c.ts) := by
        rw [hlist] at hsort
        exact (List.pairwise_append.mp hsort).2.1
      intro z hz
      cases hR : (advanceCursor cur rest b).2 with
      | nil => rw [hR] at hz; exact absurd hz (List.not_mem_nil z)
      | cons rh rt =>
        have hrh : b < rh.ts := by
          have := h3 rh (by rw [hR]; simp)
          omega
        rw [hR] at hz
        rcases List.mem_cons.mp hz with hz | hz
        · rw [hz]; exact hrh
        · have hpR' := hpR.of_cons
          rw [hR] at hpR'
          have := (List.pairwise_cons.mp hpR').1 z hz
          omega
    have hhead : boundaryPrice (advanceCursor cur rest b).1 b =
        naiveBoundaryPrice (dp ++ cur :: rest) b := by
      rw [hlist]
      refine (naiveBoundaryPrice_split _ _ _ b hAle hRgt ?_).symm
      by_cases hxb : (advanceCursor cur rest b).1.ts ≤ b
      · exact Or.inl hxb
      · right
        cases hA : dp ++ dp2 with
        | nil => rfl
        | cons a at' => exact absurd (hcurb (by rw [hA]; simp)) hxb
    have htail : scanBoundaries (advanceCursor cur rest b).1
        (advanceCursor cur rest b).2 bs' =
        bs'.map (naiveBoundaryPrice (dp ++ cur :: rest)) := by
      rw [hlist]
      refine ih (dp ++ dp2) _ _ ?_ hbs.of_cons ?_ ?_
      · rw [← hlist]; exact hsort
      · intro b' hb' d hdm
        have hbb' : b ≤ b' := (List.pairwise_cons.mp hbs).1 b' hb'
        have := hAle d hdm
        omega
      · intro hne b' hb'
        have hbb' : b ≤ b' := (List.pairwise_cons.mp hbs).1 b' hb'
        have := hcurb hne
        omega
    rw [hhead, htail]

/-- The generated 30-minute grid is ascending, so it satisfies C4's
boundary-grid hypothesis. -/
theorem boundaries30_pairwise_le (base : Int) (k : Nat) :
    (boundaries30 base k).Pairwise (· ≤ ·) := by
  rw [boundaries30, List.pairwise_map]
  exact (List.pairwise_lt_range _).imp (fun {a c} h => by omega)

/-- C4: on an ascending candle series and an ascending boundary grid, the
monotone-cursor scan assigns to every boundary exactly the naive value: the
close of the most recent candle at-or-before the boundary, absent when no
such candle exists or that close is non-positive. -/
theorem C4_cursor_scan_refines_naive (c0 : Candle) (ctl : List Candle)
    (bs : List Int)
    (hsort : (c0 :: ctl).Pairwise (fun a c => a.ts < c.ts))
    (hbs : bs.Pairwise (· ≤ ·)) :
    scanBoundaries c0 ctl bs = bs.map (naiveBoundaryPrice (c0 :: ctl)) :=
  scanBoundaries_eq_naive_go [] c0 ctl bs (by simpa using hsort) hbs
    (by simp) (by simp)

/-- Witness for C4 at a concrete two-candle series and four boundaries
(one before the first candle, two between, one after). -/
theorem C4_cursor_scan_refines_naive_witness :
    (([⟨0, 1, 2, 1, 5, 1⟩, ⟨10, 1, 2, 1, 7, 1⟩] : List Candle).Pairwise
        (fun a c => a.ts < c.ts) ∧
      ([-1, 0, 10, 20] : List Int).Pairwise (· ≤ ·)) ∧
    scanBoundaries ⟨0, 1, 2, 1, 5, 1⟩ [⟨10, 1, 2, 1, 7, 1⟩] [-1, 0, 10, 20] =
      ([-1, 0, 10, 20] : List Int).map
        (naiveBoundaryPrice [⟨0, 1, 2, 1, 5, 1⟩, ⟨10, 1, 2, 1, 7, 1⟩]) := by
  have h1 : ([⟨0, 1, 2, 1, 5, 1⟩, ⟨10, 1, 2, 1, 7, 1⟩] : List Candle).Pairwise
      (fun a c => a.ts < c.ts) := by
    simp [List.pairwise_cons]
  have h2 : ([-1, 0, 10, 20] : List Int).Pairwise (· ≤ ·) := by
    simp [List.pairwise_cons]
  exact ⟨⟨h1, h2⟩, C4_cursor_scan_refines_naive _ _ _ h1 h2⟩

/-! ## 14. Claim C7: the message chunker

A buffer's content is reconstructed from the group of entries it holds:
`renderGroup header noSepFirst g`.  The flag records how the buffer was
opened: via the overflow path its first entry is appended to the bare
header without the `"\n\n"` separator; otherwise every entry (including
the first, since `header in buf` is always true) is preceded by the
separator. -/

/-- Join entries, each preceded by the `"\n\n"` separator. -/
def sepJoin (g : List (List Char)) : List Char :=
  (g.map (fun e => chunkSep ++ e)).flatten

/-- Text of a buffer holding the entry group `g`. -/
def renderGroup (header : List Char) (noSepFirst : Bool)
    (g : List (List Char)) : List Char :=
  match noSepFirst, g with
  | true, e :: g' => header ++ e ++ sepJoin g'
  | _, g => header ++ sepJoin g

/-- The loop's overflow test for adding entry `e` to the current buffer:
`lines_in_msg + 1 > LINES_PER_MESSAGE or len(buf) + len(chunk) > 3500`. -/
def chunkOverflow (header : List Char) (lineCap : Nat) (noSepFirst : Bool)
    (g : List (List Char)) (e : List Char) : Bool :=
  decide (lineCap < g.length + 1) ||
    decide (3500 < (renderGroup header noSepFirst g).length +
      (chunkSep.length + e.length))

/-- Modelled from the spec: the greedy two-cap grouping — append each entry
to the current group unless either cap would be exceeded, in which case the
current group is finalized and a fresh (overflow-style) group is opened
with that entry. -/
def greedyGo (header : List Char) (lineCap : Nat) (noSepFirst : Bool)
    (g : List (List Char)) : List (List Char) → List (Bool × List (List Char))
  | [] => if g = [] then [] else [(noSepFirst, g)]
  | e :: es =>
    if chunkOverflow header lineCap noSepFirst g e then
      (if g = [] then [] else [(noSepFirst, g)]) ++ greedyGo header lineCap true [e] es
    else greedyGo header lineCap noSepFirst (g ++ [e]) es

/-- The greedy grouping of a whole entry list. -/
def greedyChunks (header : List Char) (lineCap : Nat)
    (entries : List (List Char)) : List (Bool × List (List Char)) :=
  greedyGo header lineCap false [] entries

/-- An entry as formatted by the code: non-empty and not ending in
whitespace (`line2` ends in `%`, an emoji, `-` or an hour label). -/
def goodEntry (e : List Char) : Prop :=
  e ≠ [] ∧ ∀ c, e.getLast? = some c → pySpace c = false

/-- Appending one entry to a separator-join. -/
theorem sepJoin_concat (g : List (List Char)) (e : List Char) :
    sepJoin (g ++ [e]) = sepJoin g ++ (chunkSep ++ e) := by
  rw [sepJoin, sepJoin, List.map_append, List.flatten_append]
  simp

/-- Every buffer text starts with the header (hence `header in buf`). -/
theorem renderGroup_eq_header_append (header : List Char) (f : Bool)
    (g : List (List Char)) : ∃ t, renderGroup header f g = header ++ t := by
  cases f with
  | false => exact ⟨sepJoin g, rfl⟩
  | true =>
    cases g with
    | nil => exact ⟨sepJoin [], rfl⟩
    | cons e g' => exact ⟨e ++ sepJoin g', by rw [renderGroup, List.append_assoc]⟩

/-- A header is an infix of any string it prefixes. -/
theorem header_infix_append (header x : List Char) : header <:+: header ++ x :=
  ⟨[], x, by simp⟩

/-- Appending an entry to a buffer rendering (separator style of the first
entry untouched). -/
theorem renderGroup_concat (header : List Char) (f : Bool)
    (g : List (List Char)) (e : List Char) (hne : f = true → g ≠ []) :
    renderGroup header f (g ++ [e]) =
      renderGroup header f g ++ (chunkSep ++ e) := by
  cases f with
  | false =>
    show header ++ sepJoin (g ++ [e]) = (header ++ sepJoin g) ++ (chunkSep ++ e)
    rw [sepJoin_concat, List.append_assoc]
  | true =>
    cases g with
    | nil => exact absurd rfl (hne rfl)
    | cons e0 g' =>
      show header ++ e0 ++ sepJoin (g' ++ [e]) =
        (header ++ e0 ++ sepJoin g') ++ (chunkSep ++ e)
      rw [sepJoin_concat]
      simp [List.append_assoc]

/-- Length of a buffer after appending an entry never exceeds the old
length plus separator plus entry (equality except for the corner case of
an overflow-opened buffer receiving its first entry). -/
theorem renderGroup_concat_length (header : List Char) (f : Bool)
    (g : List (List Char)) (e : List Char) :
    (renderGroup header f (g ++ [e])).length ≤
      (renderGroup header f g).length + chunkSep.length + e.length := by
  cases f with
  | false =>
    rw [renderGroup_concat header false g e (by intro h; cases h)]
    simp [List.length_append]
    omega
  | true =>
    cases g with
    | nil =>
      show (header ++ e ++ sepJoin []).length ≤
        (header ++ sepJoin []).length + chunkSep.length + e.length
      simp [sepJoin, chunkSep]
    | cons e0 g' =>
      rw [renderGroup_concat header true (e0 :: g') e (fun _ => by simp)]
      simp [List.length_append]
      omega

/-- Python `rstrip` leaves a string alone when its last character is not
whitespace. -/
theorem rstrip_concat_not_space (l : List Char) (c : Char)
    (hc : pySpace c = false) : rstrip (l ++ [c]) = l ++ [c] := by
  rw [rstrip, List.reverse_append]
  simp [List.dropWhile_cons, hc]

/-- A non-empty buffer rendering ends with its last entry. -/
theorem renderGroup_ends_with (header : List Char) (f : Bool)
    (g' : List (List Char)) (eL : List Char) :
    ∃ Y, renderGroup header f (g' ++ [eL]) = Y ++ eL := by
  cases f with
  | false =>
    refine ⟨header ++ sepJoin g' ++ chunkSep, ?_⟩
    rw [renderGroup_concat header false g' eL (by intro h; cases h)]
    show (header ++ sepJoin g') ++ (chunkSep ++ eL) = _
    simp [List.append_assoc]
  | true =>
    cases g' with
    | nil => exact ⟨header, by simp [renderGroup, sepJoin]⟩
    | cons e0 g'' =>
      refine ⟨renderGroup header true (e0 :: g'') ++ chunkSep, ?_⟩
      rw [renderGroup_concat header true (e0 :: g'') eL (fun _ => by simp)]
      simp [List.append_assoc]

/-- Flushing a buffer whose entries are well-formed sends its exact text. -/
theorem rstrip_renderGroup (header : List Char) (f : Bool)
    (g : List (List Char)) (hne : g ≠ []) (hgood : ∀ e ∈ g, goodEntry e) :
    rstrip (renderGroup header f g) = renderGroup header f g := by
  obtain ⟨g', eL, hg⟩ : ∃ g' eL, g = g' ++ [eL] := by
    rcases List.eq_nil_or_concat g with h | ⟨L, b, h⟩
    · exact absurd h hne
    · exact ⟨L, b, by simpa using h⟩
  subst hg
  have hgoodL : goodEntry eL := hgood eL (by simp)
  obtain ⟨Y, hY⟩ := renderGroup_ends_with header f g' eL
  rw [hY]
  obtain ⟨eL', c, he⟩ : ∃ eL' c, eL = eL' ++ [c] := by
    rcases List.eq_nil_or_concat eL with h | ⟨L, b, h⟩
    · exact absurd h hgoodL.1
    · exact ⟨L, b, by simpa using h⟩
  subst he
  have hc : pySpace c = false := hgoodL.2 c (List.getLast?_concat eL')
  rw [← List.append_assoc]
  exact rstrip_concat_not_space _ c hc

/-- The chunking loop, started from any buffer that renders a well-formed
group, sends exactly the renderings of the greedy grouping. -/
theorem chunk_foldl_eq_greedy (header : List Char) (lineCap : Nat)
    (es : List (List Char)) :
    ∀ (s : ChunkState) (f : Bool) (g : List (List Char)),
      s.buf = renderGroup header f g →
      s.lines = g.length →
      (f = true → g ≠ []) →
      (∀ e ∈ g, goodEntry e) →
      (∀ e ∈ es, goodEntry e) →
      (flushBuf header (es.foldl (chunkStep header lineCap) s)).sent =
        s.sent ++ (greedyGo header lineCap f g es).map
          (fun p => renderGroup header p.1 p.2) := by
  induction es with
  | nil =>
    intro s f g hbuf hlines hflag hgood _
    rw [List.foldl_nil, greedyGo]
    by_cases hg : g = []
    · subst hg
      rw [if_pos rfl, flushBuf, if_neg (by rw [hlines]; simp)]
      simp
    · have hpos : 0 < s.lines := by
        rw [hlines]
        exact List.length_pos.mpr hg
      rw [if_neg hg, flushBuf, if_pos hpos]
      rw [hbuf, rstrip_renderGroup header f g hg hgood]
      simp
  | cons e es' ih =>
    intro s f g hbuf hlines hflag hgood hgoodes
    have hgoode : goodEntry e := hgoodes e (List.mem_cons_self e es')
    have hgoodes' : ∀ x ∈ es', goodEntry x :=
      fun x hx => hgoodes x (List.mem_cons.mpr (Or.inr hx))
    rw [List.foldl_cons, greedyGo]
    have hsep : (0 < s.lines ∨ header <:+: s.buf) := by
      right
      obtain ⟨t, ht⟩ := renderGroup_eq_header_append header f g
      rw [hbuf, ht]
      exact header_infix_append header t
    have hcond : (lineCap < s.lines + 1 ∨
        3500 < s.buf.length + (chunkSep ++ e).length) ↔
        chunkOverflow header lineCap f g e = true := by
      rw [chunkOverflow, hbuf, hlines]
      simp only [List.length_append, Bool.or_eq_true, decide_eq_true_iff]
    have hstep : chunkStep header lineCap s e =
        if lineCap < s.lines + 1 ∨ 3500 < s.buf.length + (chunkSep ++ e).length then
          ⟨(flushBuf header s).buf ++ e, 1, (flushBuf header s).sent⟩
        else ⟨s.buf ++ (chunkSep ++ e), s.lines + 1, s.sent⟩ := by
      rw [chunkStep]
      rw [if_pos hsep]
    by_cases hovf : chunkOverflow header lineCap f g e = true
    · rw [hstep, if_pos (hcond.mpr hovf), if_pos hovf]
      have hs1buf : ((flushBuf header s).buf ++ e) = renderGroup header true [e] := by
        rw [flushBuf]
        split <;> simp [renderGroup, sepJoin]
      have happly := ih ⟨(flushBuf header s).buf ++ e, 1, (flushBuf header s).sent⟩
        true [e] hs1buf rfl (fun _ => by simp)
        (fun x hx => by rw [List.mem_singleton.mp hx]; exact hgoode) hgoodes'
      rw [happly]
      rw [List.map_append]
      by_cases hg : g = []
      · subst hg
        rw [if_pos rfl, flushBuf, if_neg (by rw [hlines]; simp)]
        simp
      · have hpos : 0 < s.lines := by
          rw [hlines]
          exact List.length_pos.mpr hg
        rw [if_neg hg, flushBuf, if_pos hpos]
        rw [hbuf, rstrip_renderGroup header f g hg hgood]
        simp
    · rw [hstep, if_neg (fun hcc => hovf (hcond.mp hcc)), if_neg hovf]
      have hs1buf : s.buf ++ (chunkSep ++ e) = renderGroup header f (g ++ [e]) := by
        rw [renderGroup_concat header f g e hflag, hbuf]
      have happly := ih ⟨s.buf ++ (chunkSep ++ e), s.lines + 1, s.sent⟩
        f (g ++ [e]) hs1buf (by rw [hlines]; simp) (fun _ => by simp)
        (fun x hx => by
          rcases List.mem_append.mp hx with hx | hx
          · exact hgood x hx
          · rw [List.mem_singleton.mp hx]; exact hgoode) hgoodes'
      exact happly

/-- Concatenating the greedy groups reproduces the current group followed by
the remaining entries: no entry is lost, duplicated, split or reordered. -/
theorem greedyGo_flatten (header : List Char) (lineCap : Nat)
    (es : List (List Char)) :
    ∀ f g, ((greedyGo header lineCap f g es).map Prod.snd).flatten = g ++ es := by
  induction es with
  | nil =>
    intro f g
    rw [greedyGo]
    by_cases hg : g = [] <;> simp [hg]
  | cons e es' ih =>
    intro f g
    rw [greedyGo]
    split
    next hovf =>
      rw [List.map_append, List.flatten_append]
      by_cases hg : g = [] <;> simp [hg, ih]
    next hovf =>
      rw [ih]
      simp

/-- Unfolding a failed overflow test. -/
theorem chunkOverflow_false_iff (header : List Char) (lineCap : Nat) (f : Bool)
    (g : List (List Char)) (e : List Char) :
    chunkOverflow header lineCap f g e = false ↔
      (g.length + 1 ≤ lineCap ∧
        (renderGroup header f g).length + (chunkSep.length + e.length) ≤ 3500) := by
  rw [chunkOverflow]
  simp [not_lt]

/-- Every greedy group is non-empty, respects the entry cap up to
`max lineCap 1`, and respects the character cap unless it is a single
oversized entry. -/
theorem greedyGo_groups_sound (header : List Char) (lineCap : Nat)
    (es : List (List Char)) :
    ∀ f g, g.length ≤ max lineCap 1 →
      (g = [] ∨ (renderGroup header f g).length ≤ 3500 ∨ ∃ e', g = [e']) →
      ∀ p ∈ greedyGo header lineCap f g es,
        p.2 ≠ [] ∧ p.2.length ≤ max lineCap 1 ∧
          ((renderGroup header p.1 p.2).length ≤ 3500 ∨ ∃ e', p.2 = [e']) := by
  induction es with
  | nil =>
    intro f g hlen hchar p hp
    rw [greedyGo] at hp
    by_cases hg : g = []
    · rw [if_pos hg] at hp
      exact absurd hp (List.not_mem_nil p)
    · rw [if_neg hg, List.mem_singleton] at hp
      subst hp
      exact ⟨hg, hlen, hchar.resolve_left hg⟩
  | cons e es' ih =>
    intro f g hlen hchar p hp
    rw [greedyGo] at hp
    split at hp
    next hovf =>
      rw [List.mem_append] at hp
      rcases hp with hp | hp
      · by_cases hg : g = []
        · rw [if_pos hg] at hp
          exact absurd hp (List.not_mem_nil p)
        · rw [if_neg hg, List.mem_singleton] at hp
          subst hp
          exact ⟨hg, hlen, hchar.resolve_left hg⟩
      · exact ih true [e] (by simp) (Or.inr (Or.inr ⟨e, rfl⟩)) p hp
    next hovf =>
      have hfalse : chunkOverflow header lineCap f g e = false := by
        simpa using hovf
      obtain ⟨hl, hc⟩ := (chunkOverflow_false_iff header lineCap f g e).mp hfalse
      refine ih f (g ++ [e]) ?_ ?_ p hp
      · simp only [List.length_append, List.length_singleton]
        omega
      · right; left
        calc (renderGroup header f (g ++ [e])).length
            ≤ (renderGroup header f g).length + chunkSep.length + e.length :=
              renderGroup_concat_length header f g e
          _ ≤ 3500 := by omega

/-- The first greedy group extends the current group. -/
theorem greedyGo_head (header : List Char) (lineCap : Nat)
    (es : List (List Char)) :
    ∀ f g, g ≠ [] →
      ∃ ext, (greedyGo header lineCap f g es).head? = some (f, g ++ ext) := by
  induction es with
  | nil =>
    intro f g hg
    rw [greedyGo, if_neg hg]
    exact ⟨[], by simp⟩
  | cons e es' ih =>
    intro f g hg
    rw [greedyGo]
    by_cases hovf : chunkOverflow header lineCap f g e = true
    · rw [if_pos hovf, if_neg hg]
      exact ⟨[], by simp⟩
    · rw [if_neg hovf]
      obtain ⟨ext, hext⟩ := ih f (g ++ [e]) (by simp)
      exact ⟨[e] ++ ext, by rw [hext]; simp⟩

/-- Consecutive greedy groups are separated exactly by a failed fit: the
first entry of each later buffer overflowed the buffer before it. -/
theorem greedyGo_chain (header : List Char) (lineCap : Nat)
    (es : List (List Char)) :
    ∀ f g, List.Chain' (fun p q => ∀ e0 ∈ q.2.head?,
        chunkOverflow header lineCap p.1 p.2 e0 = true)
      (greedyGo header lineCap f g es) := by
  induction es with
  | nil =>
    intro f g
    rw [greedyGo]
    by_cases hg : g = []
    · rw [if_pos hg]
      exact List.chain'_nil
    · rw [if_neg hg]
      exact List.chain'_singleton _
  | cons e es' ih =>
    intro f g
    rw [greedyGo]
    split
    next hovf =>
      by_cases hg : g = []
      · rw [if_pos hg, List.nil_append]
        exact ih true [e]
      · rw [if_neg hg, List.singleton_append]
        refine List.chain'_cons'.mpr ⟨?_, ih true [e]⟩
        intro q hq
        obtain ⟨ext, hext⟩ := greedyGo_head header lineCap es' true [e] (by simp)
        rw [hext] at hq
        have hq' : q = (true, [e] ++ ext) := by
          have h := hq
          simp only [Option.mem_def, Option.some.injEq] at h
          exact h.symm
        rw [hq']
        intro e0 he0
        have he0' : e = e0 := by simpa using he0
        rw [← he0']
        exact hovf
    next hovf => exact ih f (g ++ [e])

/-- Inside any greedy group, every entry after the first was added because
the overflow test failed for it (the greedy grouping is maximal). -/
theorem greedyGo_fits (header : List Char) (lineCap : Nat)
    (es : List (List Char)) :
    ∀ f g, (∀ g1 e' g2, g = g1 ++ e' :: g2 → g1 ≠ [] →
        chunkOverflow header lineCap f g1 e' = false) →
      ∀ p ∈ greedyGo header lineCap f g es,
        ∀ g1 e' g2, p.2 = g1 ++ e' :: g2 → g1 ≠ [] →
          chunkOverflow header lineCap p.1 g1 e' = false := by
  induction es with
  | nil =>
    intro f g hfit p hp
    rw [greedyGo] at hp
    by_cases hg : g = []
    · rw [if_pos hg] at hp
      exact absurd hp (List.not_mem_nil p)
    · rw [if_neg hg, List.mem_singleton] at hp
      subst hp
      exact hfit
  | cons e es' ih =>
    intro f g hfit p hp
    rw [greedyGo] at hp
    split at hp
    next hovf =>
      rw [List.mem_append] at hp
      rcases hp with hp | hp
      · by_cases hg : g = []
        · rw [if_pos hg] at hp
          exact absurd hp (List.not_mem_nil p)
        · rw [if_neg hg, List.mem_singleton] at hp
          subst hp
          exact hfit
      · refine ih true [e] ?_ p hp
        intro g1 e' g2 hdec hg1
        exfalso
        rcases g1 with - | ⟨a, g1'⟩
        · exact hg1 rfl
        · have := congrArg List.length hdec
          simp [List.length_append] at this
    next hovf =>
      have hfalse : chunkOverflow header lineCap f g e = false := by
        simpa using hovf
      refine ih f (g ++ [e]) ?_ p hp
      intro g1 e' g2 hdec hg1
      rcases List.eq_nil_or_concat g2 with hg2 | ⟨g2', z, hg2⟩
      · subst hg2
        obtain ⟨hgg, hee⟩ := List.append_inj' hdec (by simp)
        have he : e = e' := by
          injection hee
        rw [← hgg, ← he]
        exact hfalse
      · rw [hg2] at hdec
        have hdec' : g ++ [e] = (g1 ++ e' :: g2') ++ [z] := by
          rw [hdec]
          simp
        obtain ⟨hgg, hzz⟩ := List.append_inj' hdec' (by simp)
        exact hfit g1 e' g2' hgg hg1

/-! ## 15. Claim C7: main results -/

/-- C7 counterexample: with header `"H"`, entry cap `0`, and a single
3501-character entry, the code finalizes one buffer of 3502 characters
holding one entry — over the 3500-character cap and over the entry cap. -/
theorem C7_caps_counterexample :
    send_ranked_messages ['H'] 0 [List.replicate 3501 'a'] =
      ['H' :: List.replicate 3501 'a'] ∧
    ('H' :: List.replicate 3501 'a').length = 3502 ∧
    ¬ (('H' :: List.replicate 3501 'a').length ≤ 3500) ∧
    ¬ ((1:Nat) ≤ 0) := by
  have hr : rstrip ('H' :: List.replicate 3501 'a') =
      'H' :: List.replicate 3501 'a' := by
    have hsplit : 'H' :: List.replicate 3501 'a' =
        ('H' :: List.replicate 3500 'a') ++ ['a'] := by
      rw [List.cons_append, ← List.replicate_succ']
    rw [hsplit]
    exact rstrip_concat_not_space _ 'a' (by decide)
  have hlen : ('H' :: List.replicate 3501 'a').length = 3502 := by
    rw [List.length_cons, List.length_replicate]
  have h1 : chunkStep ['H'] 0 ⟨['H'], 0, []⟩ (List.replicate 3501 'a') =
      ⟨'H' :: List.replicate 3501 'a', 1, []⟩ := by
    rw [chunkStep]
    dsimp only
    have hsep : ((0:Nat) < 0 ∨ (['H'] : List Char) <:+: ['H']) :=
      Or.inr ⟨[], [], rfl⟩
    rw [if_pos hsep]
    have hovf : ((0:Nat) < 0 + 1 ∨
        3500 < (['H'] : List Char).length +
          (chunkSep ++ List.replicate 3501 'a').length) :=
      Or.inl (by norm_num)
    rw [if_pos hovf, flushBuf]
    rw [if_neg (by norm_num : ¬ (0:Nat) < 0)]
    dsimp only
    rw [List.singleton_append]
  have h2 : flushBuf ['H'] ⟨'H' :: List.replicate 3501 'a', 1, []⟩ =
      ⟨['H'], 0, ['H' :: List.replicate 3501 'a']⟩ := by
    rw [flushBuf]
    rw [if_pos (by norm_num : (0:Nat) < 1)]
    dsimp only
    rw [hr, List.nil_append]
  refine ⟨?_, hlen, ?_, by norm_num⟩
  · rw [send_ranked_messages, List.foldl_cons, List.foldl_nil, h1, h2]
  · rw [hlen]
    norm_num

/-- C7 (amended): for entries that are non-empty and do not end in
whitespace (all code-formatted entries are), the chunker sends exactly the
renderings of the greedy two-cap grouping: each buffer re-prefixed with the
header; groups concatenate back to the full ranked list in order (entries
never split); each finalized buffer holds at most `max lineCap 1` entries
and either fits the 3500-character cap or is the header plus one oversized
entry; entries beyond a group's first were added exactly because no cap
would be exceeded, and each later buffer opens exactly because its first
entry would have exceeded a cap of the buffer before it. -/
theorem C7_chunker_amended (header : List Char) (lineCap : Nat)
    (entries : List (List Char))
    (hgood : ∀ e ∈ entries, e ≠ [] ∧
      ∀ c, e.getLast? = some c → pySpace c = false) :
    send_ranked_messages header lineCap entries =
      (greedyChunks header lineCap entries).map
        (fun p => renderGroup header p.1 p.2) ∧
    ((greedyChunks header lineCap entries).map Prod.snd).flatten = entries ∧
    (∀ p ∈ greedyChunks header lineCap entries,
      p.2 ≠ [] ∧ p.2.length ≤ max lineCap 1 ∧
        ((renderGroup header p.1 p.2).length ≤ 3500 ∨ ∃ e, p.2 = [e]) ∧
        (∃ t, renderGroup header p.1 p.2 = header ++ t) ∧
        (∀ g1 e g2, p.2 = g1 ++ e :: g2 → g1 ≠ [] →
          chunkOverflow header lineCap p.1 g1 e = false)) ∧
    List.Chain' (fun p q => ∀ e0 ∈ q.2.head?,
        chunkOverflow header lineCap p.1 p.2 e0 = true)
      (greedyChunks header lineCap entries) := by
  have hgood' : ∀ e ∈ entries, goodEntry e := hgood
  refine ⟨?_, ?_, ?_, greedyGo_chain header lineCap entries false []⟩
  · rw [send_ranked_messages, greedyChunks]
    have h := chunk_foldl_eq_greedy header lineCap entries ⟨header, 0, []⟩ false []
      (by simp [renderGroup, sepJoin]) rfl (fun h => nomatch h) (by simp) hgood'
    simpa using h
  · rw [greedyChunks, greedyGo_flatten]
    rfl
  · intro p hp
    have hsound := greedyGo_groups_sound header lineCap entries false []
      (by simp) (Or.inl rfl) p hp
    have hfits := greedyGo_fits header lineCap entries false []
      (by
        intro g1 e' g2 hdec hg1
        exfalso
        rcases g1 with - | ⟨a, g1'⟩
        · exact hg1 rfl
        · exact absurd hdec (by simp)) p hp
    exact ⟨hsound.1, hsound.2.1, hsound.2.2,
      renderGroup_eq_header_append header p.1 p.2, hfits⟩

/-- Witness for the amended C7: header `"Hi"`, entry cap 2, entries
`["ab", "cd", "ef"]` — the first buffer takes two entries, then the entry
cap forces a second buffer. -/
theorem C7_chunker_amended_witness :
    (∀ e ∈ [['a','b'], ['c','d'], ['e','f']], e ≠ [] ∧
      ∀ c, e.getLast? = some c → pySpace c = false) ∧
    (send_ranked_messages ['H','i'] 2 [['a','b'], ['c','d'], ['e','f']] =
      (greedyChunks ['H','i'] 2 [['a','b'], ['c','d'], ['e','f']]).map
        (fun p => renderGroup ['H','i'] p.1 p.2) ∧
    ((greedyChunks ['H','i'] 2 [['a','b'], ['c','d'], ['e','f']]).map
        Prod.snd).flatten = [['a','b'], ['c','d'], ['e','f']] ∧
    (∀ p ∈ greedyChunks ['H','i'] 2 [['a','b'], ['c','d'], ['e','f']],
      p.2 ≠ [] ∧ p.2.length ≤ max 2 1 ∧
        ((renderGroup ['H','i'] p.1 p.2).length ≤ 3500 ∨ ∃ e, p.2 = [e]) ∧
        (∃ t, renderGroup ['H','i'] p.1 p.2 = ['H','i'] ++ t) ∧
        (∀ g1 e g2, p.2 = g1 ++ e :: g2 → g1 ≠ [] →
          chunkOverflow ['H','i'] 2 p.1 g1 e = false)) ∧
    List.Chain' (fun p q => ∀ e0 ∈ q.2.head?,
        chunkOverflow ['H','i'] 2 p.1 p.2 e0 = true)
      (greedyChunks ['H','i'] 2 [['a','b'], ['c','d'], ['e','f']])) := by
  have hgood : ∀ e ∈ [['a','b'], ['c','d'], ['e','f']], e ≠ [] ∧
      ∀ c, e.getLast? = some c → pySpace c = false := by decide
  exact ⟨hgood, C7_chunker_amended ['H','i'] 2 _ hgood⟩
